import Mathlib

/-!
Verification of the release-watcher core (`src/main.js`) against its
specification.  The JavaScript source is shallowly embedded: pure string
manipulation becomes Lean functions on `List Char`, the persisted store is an
association list, network effects (release fetch, notification post) are
represented as explicit data, and the external collaborators (the
`compare-versions` validator and comparator, the date formatter) are
parameters of the per-entry processing function.
-/

namespace Watcher

/-! ## Character classes and JS string primitives -/

/-- Modelled from the spec: JavaScript's whitespace class (`\s`, also used by
`String.prototype.trim`): tab, line feed, vertical tab, form feed, carriage
return, space, NBSP, the Unicode space separators, line/paragraph separators,
narrow NBSP, medium mathematical space, ideographic space and the BOM. -/
def jsSpace (c : Char) : Bool :=
  let n := c.toNat
  n == 9 || n == 10 || n == 11 || n == 12 || n == 13 || n == 32 ||
  n == 160 || n == 0x1680 || (0x2000 ≤ n && n ≤ 0x200a) ||
  n == 0x2028 || n == 0x2029 || n == 0x202f || n == 0x205f ||
  n == 0x3000 || n == 0xfeff

/-- Modelled from the spec: `String.prototype.toLowerCase` on one character
(ASCII case mapping, which is all the repository-list fields use). -/
def jsCharLower (c : Char) : Char :=
  if 65 ≤ c.toNat && c.toNat ≤ 90 then Char.ofNat (c.toNat + 32) else c

/-- `toLowerCase` over a whole string. -/
def jsToLower (s : String) : String := String.mk (s.data.map jsCharLower)

/-- `String.prototype.trim`: drop `jsSpace` characters from both ends. -/
def jsTrim (cs : List Char) : List Char :=
  ((cs.dropWhile jsSpace).reverse.dropWhile jsSpace).reverse

/-- `String.prototype.split(sep)` (single-character separator): always returns
at least one field; `"".split(sep) = [""]`. -/
def splitSep (sep : Char) : List Char → List (List Char)
  | [] => [[]]
  | c :: cs =>
    if c == sep then [] :: splitSep sep cs
    else
      match splitSep sep cs with
      | p :: ps => (c :: p) :: ps
      | [] => [[c]]

/-- Strip a literal from the front, returning the remainder on success. -/
def stripPre : List Char → List Char → Option (List Char)
  | [], cs => some cs
  | _ :: _, [] => none
  | p :: ps, c :: cs => if c == p then stripPre ps cs else none

/-- JS regex `\w`: ASCII letter, digit or underscore. -/
def isWordChar (c : Char) : Bool := c.isAlpha || c.isDigit || c == '_'

/-- The character class `[\w.-]` used for GitHub owner and repository names. -/
def isOwnerChar (c : Char) : Bool := isWordChar c || c == '.' || c == '-'

/-- The character class `[a-zA-Z0-9-]` of the `@mention` regex. -/
def isMentionChar (c : Char) : Bool := c.isAlpha || c.isDigit || c == '-'

/-! ## Repository-list line parsing (`parseLine`, src/main.js:56-64) -/

/-- `line.startsWith('#')`. -/
def startsWithHash : List Char → Bool
  | [] => false
  | c :: _ => c == '#'

/-- `parseLine` on the character list of a line: `#` lines produce no
repository; otherwise each `:`-separated field is trimmed and lowercased, the
first field is the repository id and the second field selects beta tracking
when it equals `"beta"`. -/
def parseLineCore (cs : List Char) : Option (List Char) × Bool :=
  if startsWithHash cs then (none, false)
  else
    let parts := (splitSep ':' cs).map (fun p => (jsTrim p).map jsCharLower)
    (some (parts.headD []), (parts.getD 1 []) == "beta".data)

/-- `parseLine` (src/main.js:56-64). -/
def parseLine (line : String) : Option String × Bool :=
  ((parseLineCore line.data).1.map String.mk, (parseLineCore line.data).2)

/-! ## Version normalisation (`sanitizeVersion`, src/main.js:92-95)

The regex `/(\d+(?:\.\d+)+)/` is embedded as a four-state automaton:
state 0 expects the first digit, state 1 is inside the leading digit run,
state 2 has just consumed a dot, state 3 is inside a later digit run
(the only accepting state). -/

/-- One transition of the `\d+(?:\.\d+)+` automaton; `none` means the
match attempt is stuck. -/
def dfaStep : Nat → Char → Option Nat
  | 0, c => if c.isDigit then some 1 else none
  | 1, c => if c.isDigit then some 1 else if c == '.' then some 2 else none
  | 2, c => if c.isDigit then some 3 else none
  | 3, c => if c.isDigit then some 3 else if c == '.' then some 2 else none
  | _ + 4, _ => none

/-- Run the automaton over a list of characters. -/
def runState (s : Nat) : List Char → Option Nat
  | [] => some s
  | c :: cs =>
    match dfaStep s c with
    | some s2 => runState s2 cs
    | none => none

/-- A character list matches `\d+(?:\.\d+)+` exactly. -/
def dottedB (cs : List Char) : Bool := runState 0 cs == some 3

/-- Longest prefix accepted by the automaton from state `s` (the greedy
match), together with the remainder. -/
def longestAccept (s : Nat) : List Char → Option (List Char × List Char)
  | [] => none
  | c :: cs =>
    match dfaStep s c with
    | none => none
    | some s2 =>
      match longestAccept s2 cs with
      | some (p, r) => some (c :: p, r)
      | none => if s2 == 3 then some ([c], cs) else none

/-- First (leftmost) match of `\d+(?:\.\d+)+` in a character list. -/
def findDotted : List Char → Option (List Char)
  | [] => none
  | c :: cs =>
    match longestAccept 0 (c :: cs) with
    | some (p, _) => some p
    | none => findDotted cs

/-- `sanitizeVersion` (src/main.js:92-95): prefix the first dotted numeric
sequence with `v`, or return the empty string. -/
def sanitizeVersion (version : String) : String :=
  match findDotted version.data with
  | some m => String.mk ('v' :: m)
  | none => ""

/-! ## Emoji expansion (external dependency)

`emojify` comes from the `node-emoji` package, not from this repository. -/

/-- Modelled from the spec: a finite fragment of the `node-emoji` table used
by shortcode expansion ("expand textual emoji shortcodes into their
glyphs"). -/
def emojiTable : List (String × String) :=
  [("tada", "🎉"), ("rocket", "🚀"), ("bug", "🐛"),
   ("sparkles", "✨"), ("heart", "❤")]

/-- Characters allowed in an emoji shortcode name. -/
def isEmojiNameChar (c : Char) : Bool :=
  c.isAlpha || c.isDigit || c == '_' || c == '-' || c == '+'

/-- Association-list lookup for string tables. -/
def assocFind (k : String) : List (String × String) → Option String
  | [] => none
  | (k2, v) :: rest => if k2 == k then some v else assocFind k rest

/-- Modelled from the spec: `node-emoji`'s `emojify` — scan for `:name:`
occurrences; a known name is replaced by its glyph, an unknown one is left
verbatim, and scanning resumes after the closing colon either way. -/
def emojifyAux : Nat → List Char → List Char
  | 0, cs => cs
  | _ + 1, [] => []
  | f + 1, c :: cs =>
    if c == ':' then
      match cs.span isEmojiNameChar with
      | (nm, ':' :: r2) =>
        if nm.isEmpty then ':' :: emojifyAux f cs
        else
          match assocFind (String.mk nm) emojiTable with
          | some g => g.data ++ emojifyAux f r2
          | none => ':' :: nm ++ ':' :: emojifyAux f r2
      | _ => ':' :: emojifyAux f cs
    else c :: emojifyAux f cs

/-- `emojify` on strings. -/
def emojify (s : String) : String := String.mk (emojifyAux s.data.length s.data)

/-! ## Markdown link rewriting (`githubMarkdown`, src/main.js:97-119) -/

/-- Match the issue/pull regex
`https:\/\/github\.com\/([\w.-]+)\/([\w.-]+)\/(issues|pull)\/(\d+)` at the
head of the list, returning the rewritten link and the remainder. -/
def matchIssue (cs : List Char) : Option (List Char × List Char) :=
  match stripPre "https://github.com/".data cs with
  | none => none
  | some r1 =>
    let (owner, r2) := r1.span isOwnerChar
    if owner.isEmpty then none else
    match r2 with
    | '/' :: r3 =>
      let (rep, r4) := r3.span isOwnerChar
      if rep.isEmpty then none else
      match r4 with
      | '/' :: r5 =>
        let tyR :=
          match stripPre "issues/".data r5 with
          | some r6 => some ("issues".data, r6)
          | none =>
            match stripPre "pull/".data r5 with
            | some r6 => some ("pull".data, r6)
            | none => none
        match tyR with
        | none => none
        | some (ty, r6) =>
          match r6.span Char.isDigit with
          | ([], _) => none
          | (num, r7) =>
            some ("[#".data ++ num ++ "](https://github.com/".data ++ owner ++
                  '/' :: rep ++ '/' :: ty ++ '/' :: num ++ [')'], r7)
      | _ => none
    | _ => none

/-- Scan-and-replace loop for the issue/pull rewrite (the `g` flag). -/
def replaceIssues : Nat → List Char → List Char
  | 0, cs => cs
  | _ + 1, [] => []
  | f + 1, c :: cs =>
    match matchIssue (c :: cs) with
    | some (repl, rest) => repl ++ replaceIssues f rest
    | none => c :: replaceIssues f cs

/-- A JS word boundary `\b` between a last matched character and the next
character (end of string counts as a non-word character). -/
def boundaryOk (last : Char) (next : Option Char) : Bool :=
  isWordChar last != (match next with | some c => isWordChar c | none => false)

/-- Longest non-empty prefix of the (reversed) mention-character run whose
end is a word boundary — the backtracking of `[a-zA-Z0-9-]+\b`. -/
def fbpRev : List Char → Option Char → Option (List Char)
  | [], _ => none
  | l :: rest, nxt =>
    if boundaryOk l nxt then some (l :: rest) else fbpRev rest (some l)

/-- Match `@([a-zA-Z0-9-]+)\b` at the head of the list; `pre` is the already
matched `(^|\s)` capture, re-inserted inside the link text. -/
def matchMentionAt (pre : List Char) (cs : List Char) :
    Option (List Char × List Char) :=
  match cs with
  | '@' :: cs1 =>
    let (run, r0) := cs1.span isMentionChar
    match fbpRev run.reverse r0.head? with
    | none => none
    | some revUser =>
      let user := revUser.reverse
      some ('[' :: pre ++ '@' :: user ++ "](https://github.com/".data ++
            user ++ [')'],
            run.drop user.length ++ r0)
  | _ => none

/-- Scan-and-replace loop for `(^|\s)@([a-zA-Z0-9-]+)\b`; the flag records
whether we are still at the start of the string (the `^` alternative). -/
def replaceMentions : Nat → Bool → List Char → List Char
  | 0, _, cs => cs
  | _ + 1, _, [] => []
  | f + 1, atStart, c :: cs =>
    match (if atStart then matchMentionAt [] (c :: cs) else none) with
    | some (repl, rest) => repl ++ replaceMentions f false rest
    | none =>
      if jsSpace c then
        match matchMentionAt [c] cs with
        | some (repl, rest) => repl ++ replaceMentions f false rest
        | none => c :: replaceMentions f false cs
      else c :: replaceMentions f false cs

/-- Match `v?\d+(?:\.\d+)+` at the head of the list (greedy), returning the
matched text and the remainder. -/
def matchVer (cs : List Char) : Option (List Char × List Char) :=
  match cs with
  | 'v' :: cs1 =>
    match longestAccept 0 cs1 with
    | some (p, r) => some ('v' :: p, r)
    | none => none
  | _ =>
    match longestAccept 0 cs with
    | some (p, r) => some (p, r)
    | none => none

/-- Match the compare regex
`https:\/\/github\.com\/([\w.-]+\/[\w.-]+)\/compare\/(v?\d+(?:\.\d+)+)\.\.\.(v?\d+(?:\.\d+)+)`
at the head of the list. -/
def matchCompare (cs : List Char) : Option (List Char × List Char) :=
  match stripPre "https://github.com/".data cs with
  | none => none
  | some r1 =>
    let (owner, r2) := r1.span isOwnerChar
    if owner.isEmpty then none else
    match r2 with
    | '/' :: r3 =>
      let (rep, r4) := r3.span isOwnerChar
      if rep.isEmpty then none else
      match stripPre "/compare/".data r4 with
      | none => none
      | some r5 =>
        match matchVer r5 with
        | none => none
        | some (v1, r6) =>
          match stripPre "...".data r6 with
          | none => none
          | some r7 =>
            match matchVer r7 with
            | none => none
            | some (v2, r8) =>
              let whole := "https://github.com/".data ++ owner ++ '/' :: rep ++
                           "/compare/".data ++ v1 ++ "...".data ++ v2
              some ('[' :: v1 ++ "...".data ++ v2 ++ "](".data ++ whole ++
                    [')'], r8)
    | _ => none

/-- Scan-and-replace loop for the compare-link rewrite. -/
def replaceCompares : Nat → List Char → List Char
  | 0, cs => cs
  | _ + 1, [] => []
  | f + 1, c :: cs =>
    match matchCompare (c :: cs) with
    | some (repl, rest) => repl ++ replaceCompares f rest
    | none => c :: replaceCompares f cs

/-- `githubMarkdown` (src/main.js:97-119): issue/pull links, then `@mention`
links, then compare links, then emoji expansion.  (The source declares an
unused second parameter `repo`, shadowed in every callback.) -/
def githubMarkdown (text : String) : String :=
  let t1 := replaceIssues text.data.length text.data
  let t2 := replaceMentions t1.length true t1
  let t3 := replaceCompares t2.length t2
  emojify (String.mk t3)

/-! ## Message assembly and truncation (src/main.js:121-129, 176-189) -/

/-- UTF-8 byte length of a string (`Buffer.byteLength(s, 'utf8')`). -/
def byteLen (s : String) : Nat := s.data.foldl (fun n c => n + c.utf8Size) 0

/-- `trunkateReleaseBody` (src/main.js:121-129).  The budget is an integer
because the caller computes it by subtraction. -/
def trunkateReleaseBody (body url : String) (maxBytes : Int) : String :=
  if (byteLen body : Int) ≤ maxBytes then body
  else "Full release notes: [" ++ url ++ "](" ++ url ++ ")"

/-- `MAX_MESSAGE_BYTES` (src/main.js:26). -/
def MAX_MESSAGE_BYTES : Nat := 4000

/-- The emojified header block built in `processRepoLine`
(src/main.js:176-183). -/
def renderHeaders (name repo url version dateStr : String) : String :=
  emojify (String.intercalate "\n"
    ["**" ++ name ++ "**",
     "Repo: [" ++ repo ++ "](" ++ url ++ ")",
     "Version: " ++ version,
     "Published: " ++ dateStr,
     "",
     ""])

/-- The full message handed to `sendNtfy` (src/main.js:185-187): header block
plus the (emojified, possibly truncated) release body. -/
def assembleMessage (name repo url version dateStr body : String) : String :=
  let headers := renderHeaders name repo url version dateStr
  headers ++ trunkateReleaseBody (emojify body) url
    ((MAX_MESSAGE_BYTES : Int) - (byteLen headers : Int))

/-- Modelled from the spec's words for claim C1 only: the variant in which the
full transformation pipeline (link rewrites and emoji expansion, i.e.
`githubMarkdown`) is applied to the header text and to the body before the
byte-length check.  Compared against `assembleMessage`, which is what the
source does. -/
def assembleMessageSpecC1 (name repo url version dateStr body : String) :
    String :=
  let headers := githubMarkdown (String.intercalate "\n"
    ["**" ++ name ++ "**",
     "Repo: [" ++ repo ++ "](" ++ url ++ ")",
     "Version: " ++ version,
     "Published: " ++ dateStr,
     "",
     ""])
  headers ++ trunkateReleaseBody (githubMarkdown body) url
    ((MAX_MESSAGE_BYTES : Int) - (byteLen headers : Int))

/-- The body actually posted by `sendNtfy` (src/main.js:82): `githubMarkdown`
is applied to the caller's message only here, after assembly and after the
truncation decision. -/
def sentNtfyBody (message : String) : String := githubMarkdown message

/-! ## Data model -/

/-- A release record as consumed from the hosting API. -/
structure Release where
  tag_name : String
  name : String
  published_at : String
  html_url : String
  body : Option String
  draft : Bool
  prerelease : Bool
deriving Repr, DecidableEq

/-- The persisted store `db.data.releases`: repository id → last recorded
version string, as an insertion-ordered association list. -/
def Store := List (String × String)
deriving DecidableEq

/-- Store lookup (`db.data.releases[repo]`). -/
def getVer : Store → String → Option String
  | [], _ => none
  | (k, v) :: rest, r => if k == r then some v else getVer rest r

/-- `updateVersion` (src/main.js:41-44): set the entry and flush. -/
def setVer : Store → String → String → Store
  | [], r, ver => [(r, ver)]
  | (k, v) :: rest, r, ver =>
    if k == r then (r, ver) :: rest else (k, v) :: setVer rest r ver

/-- One notification posted through `sendNtfy` (src/main.js:81-90); the
message field records the posted body, i.e. `githubMarkdown` of the text the
caller passed. -/
structure Notif where
  title : String
  tags : String
  message : String
deriving Repr, DecidableEq

/-- Result of the release fetch for one repository: the hosting API answered
with a release list, with 404, or with some other error. -/
inductive FetchResult where
  | ok (releases : List Release)
  | notFound
  | fetchError
deriving Repr, DecidableEq

/-- How the processing of one entry ended. -/
inductive StepResult where
  /-- Comment line or empty repository id: nothing done. -/
  | skipped
  /-- An exception left `processRepoLine` (caught per-line by the sweep). -/
  | threw
  /-- No non-draft release: logged, nothing else. -/
  | noRelease
  /-- No (truthy) prior record: entry created silently. -/
  | firstSeen
  /-- A version failed validation: logged, no mutation. -/
  | invalidVersion
  /-- Newer version: store updated, notification sent. -/
  | notified
  /-- Older version: store updated silently. -/
  | downgrade
  /-- Same version: nothing done. -/
  | same
deriving Repr, DecidableEq

/-- Effects of processing one repository line: the store afterwards, the
notifications posted, and how the entry ended. -/
structure Outcome where
  store : Store
  notifs : List Notif
  result : StepResult
deriving DecidableEq

/-! ## Per-entry processing (`processRepoLine`, src/main.js:131-197) -/

/-- The release selector inlined in `processRepoLine` (src/main.js:140-147):
first non-draft release that is not a prerelease unless `beta`; else first
non-draft release; else none. -/
def selectRelease (releases : List Release) (beta : Bool) : Option Release :=
  match releases.find? (fun r => !r.draft && (beta || !r.prerelease)) with
  | some r => some r
  | none => releases.find? (fun r => !r.draft)

/-- `latestRelease.body || "No release notes."` (src/main.js:155): JS
falsiness makes both a missing and an empty body fall back. -/
def releaseBodyText (r : Release) : String :=
  match r.body with
  | some b => if b == "" then "No release notes." else b
  | none => "No release notes."

/-- The error notification text of the 404 path (src/main.js:73). -/
def notFoundMessage (repo : String) : String := "Repository not found: " ++ repo

/-- The notification title (src/main.js:175): `repo.split('/')[1]`
interpolates as the string `"undefined"` when the id has no slash. -/
def newReleaseTitle (repo : String) : String :=
  "New release available for " ++
  (match (splitSep '/' repo.data).getD 1 "undefined".data with
   | cs => String.mk cs) ++ "!"

/-- `processRepoLine` after line parsing.  `validate` and `cmp` are the
external `compare-versions` collaborators (`validate`, `compareVersions`),
`fmtDate` is `new Date(·).toLocaleString()`, and `f` maps a repository id to
the outcome of `GET /repos/{id}/releases`.  On 404 the fetch helper posts an
error notification and returns `undefined`, after which `releases.find`
throws (src/main.js:66-79, 140). -/
def processParsed (validate : String → Bool) (cmp : String → String → Int)
    (fmtDate : String → String) (store : Store)
    (p : Option String × Bool) (f : String → FetchResult) : Outcome :=
  match p.1 with
  | none => ⟨store, [], .skipped⟩
  | some repo =>
    if repo = "" then ⟨store, [], .skipped⟩
    else
      match f repo with
      | .notFound =>
        ⟨store,
         [⟨"Error", "exclamation", githubMarkdown (notFoundMessage repo)⟩],
         .threw⟩
      | .fetchError => ⟨store, [], .threw⟩
      | .ok releases =>
        match selectRelease releases p.2 with
        | none => ⟨store, [], .noRelease⟩
        | some rel =>
          let currentVersion := sanitizeVersion rel.tag_name
          match getVer store repo with
          | none => ⟨setVer store repo currentVersion, [], .firstSeen⟩
          | some lastVersion =>
            if lastVersion = "" then
              ⟨setVer store repo currentVersion, [], .firstSeen⟩
            else if !(validate lastVersion && validate currentVersion) then
              ⟨store, [], .invalidVersion⟩
            else if cmp lastVersion currentVersion = -1 then
              ⟨setVer store repo currentVersion,
               [⟨newReleaseTitle repo, "loudspeaker",
                 githubMarkdown (assembleMessage rel.name repo rel.html_url
                   currentVersion (fmtDate rel.published_at)
                   (releaseBodyText rel))⟩],
               .notified⟩
            else if cmp lastVersion currentVersion = 1 then
              ⟨setVer store repo currentVersion, [], .downgrade⟩
            else ⟨store, [], .same⟩

/-- `processRepoLine` (src/main.js:131-197). -/
def processRepoLine (validate : String → Bool) (cmp : String → String → Int)
    (fmtDate : String → String) (store : Store) (line : String)
    (f : String → FetchResult) : Outcome :=
  processParsed validate cmp fmtDate store (parseLine line) f

/-! ## The sweep (`checkReleases`, src/main.js:199-215) -/

/-- One sweep over the repository list: every line is processed in order;
a per-line error (`.threw`) is caught by the `.catch` and the sweep
continues. -/
def runSweep (validate : String → Bool) (cmp : String → String → Int)
    (fmtDate : String → String) (store : Store) (lines : List String)
    (f : String → FetchResult) : Store × List Notif :=
  match lines with
  | [] => (store, [])
  | l :: ls =>
    let o := processRepoLine validate cmp fmtDate store l f
    let rest := runSweep validate cmp fmtDate o.store ls f
    (rest.1, o.notifs ++ rest.2)

/-- Result of reading the repository list file. -/
inductive ListFetch where
  | ok (lines : List String)
  | unreadable
deriving DecidableEq

/-- One iteration of `checkReleases`: the try/catch around the sweep, followed
unconditionally by `setTimeout(checkReleases, ms(CHECK_INTERVAL))`.  The last
component is the delay after which the next sweep is scheduled. -/
def checkReleasesStep (validate : String → Bool) (cmp : String → String → Int)
    (fmtDate : String → String) (interval : Nat) (store : Store)
    (listRes : ListFetch) (f : String → FetchResult) :
    Store × List Notif × Nat :=
  match listRes with
  | .unreadable => (store, [], interval)
  | .ok lines =>
    let r := runSweep validate cmp fmtDate store lines f
    (r.1, r.2, interval)

/-! ## Spec-level notions used to state the claims -/

/-- `r` is the first element of `rs` satisfying `p`. -/
def firstWith (p : Release → Bool) (rs : List Release) (r : Release) : Prop :=
  ∃ i : Nat, rs.get? i = some r ∧ p r = true ∧
    ∀ j < i, ∀ x, rs.get? j = some x → p x = false

/-! ## Helper lemmas -/

theorem char_toNat_ofNat (n : Nat) (h : n < 55296) : (Char.ofNat n).toNat = n := by
  have hv : n.isValidChar := Or.inl h
  simp only [Char.ofNat, dif_pos hv, Char.ofNatAux, Char.toNat, UInt32.toNat,
    BitVec.toNat_ofNatLt]

theorem char_eq_iff_toNat (c d : Char) : c = d ↔ c.toNat = d.toNat := by
  constructor
  · intro h; rw [h]
  · intro h
    apply Char.eq_of_val_eq
    apply UInt32.eq_of_toBitVec_eq
    exact BitVec.eq_of_toNat_eq h

theorem toNat_jsCharLower (c : Char) :
    (jsCharLower c).toNat =
      if 65 ≤ c.toNat ∧ c.toNat ≤ 90 then c.toNat + 32 else c.toNat := by
  unfold jsCharLower
  by_cases h : 65 ≤ c.toNat ∧ c.toNat ≤ 90
  · have hb : (65 ≤ c.toNat && c.toNat ≤ 90) = true := by
      simp [h.1, h.2]
    rw [hb, if_pos h]
    exact char_toNat_ofNat _ (by omega)
  · have hb : (65 ≤ c.toNat && c.toNat ≤ 90) = false := by
      rcases Decidable.not_and_iff_or_not.mp h with h1 | h1 <;> simp [h1]
    rw [hb, if_neg h]
    simp

theorem jsCharLower_fix (t : Char) (ht : t.toNat < 65) (c : Char) :
    jsCharLower c = t ↔ c = t := by
  rw [char_eq_iff_toNat, char_eq_iff_toNat, toNat_jsCharLower]
  split
  · omega
  · exact Iff.rfl

theorem jsSpace_jsCharLower (c : Char) : jsSpace (jsCharLower c) = jsSpace c := by
  unfold jsSpace
  have h := toNat_jsCharLower c
  by_cases hc : 65 ≤ c.toNat ∧ c.toNat ≤ 90
  · rw [if_pos hc] at h
    rw [h]
    have h1 : ∀ m : Nat, 65 ≤ m → m ≤ 122 →
        ((m == 9 || m == 10 || m == 11 || m == 12 || m == 13 || m == 32 ||
          m == 160 || m == 0x1680 || (0x2000 ≤ m && m ≤ 0x200a) ||
          m == 0x2028 || m == 0x2029 || m == 0x202f || m == 0x205f ||
          m == 0x3000 || m == 0xfeff) = false) := by
      intro m hm1 hm2
      simp only [Bool.or_eq_false_iff, beq_eq_false_iff_ne, ne_eq,
        Bool.and_eq_false_iff, decide_eq_false_iff_not, not_le]
      omega
    rw [h1 _ (by omega) (by omega), h1 _ (by omega) (by omega)]
  · rw [if_neg hc] at h
    rw [h]

theorem jsCharLower_idem (c : Char) : jsCharLower (jsCharLower c) = jsCharLower c := by
  rw [char_eq_iff_toNat, toNat_jsCharLower, toNat_jsCharLower]
  by_cases h : 65 ≤ c.toNat ∧ c.toNat ≤ 90
  · simp only [if_pos h]
    rw [if_neg (by omega)]
  · simp only [if_neg h]

theorem byteLen_go (cs : List Char) (n : Nat) :
    cs.foldl (fun n c => n + c.utf8Size) n =
      n + cs.foldl (fun n c => n + c.utf8Size) 0 := by
  induction cs generalizing n with
  | nil => simp
  | cons c cs ih =>
    simp only [List.foldl_cons]
    rw [ih (n + c.utf8Size), ih (0 + c.utf8Size)]
    omega

theorem byteLen_append (a b : String) :
    byteLen (a ++ b) = byteLen a + byteLen b := by
  unfold byteLen
  rw [String.data_append, List.foldl_append, byteLen_go]

theorem find?_eq_some_firstWith (p : Release → Bool) (rs : List Release)
    (r : Release) : rs.find? p = some r ↔ firstWith p rs r := by
  induction rs with
  | nil =>
    simp only [List.find?_nil, firstWith]
    constructor
    · intro h; cases h
    · rintro ⟨i, hi, -⟩; simp at hi
  | cons hd tl ih =>
    by_cases hp : p hd = true
    · rw [List.find?_cons_of_pos _ hp]
      constructor
      · intro h
        cases h
        exact ⟨0, rfl, hp, fun j hj x hx => absurd hj (by omega)⟩
      · rintro ⟨i, hi, hr, hmin⟩
        cases i with
        | zero => simpa using hi
        | succ k =>
          have := hmin 0 (by omega) hd rfl
          rw [hp] at this; cases this
    · rw [List.find?_cons_of_neg _ hp]
      rw [ih]
      constructor
      · rintro ⟨i, hi, hr, hmin⟩
        refine ⟨i + 1, hi, hr, ?_⟩
        intro j hj x hx
        cases j with
        | zero => cases hx; exact Bool.eq_false_iff.mpr hp
        | succ k => exact hmin k (by omega) x hx
      · rintro ⟨i, hi, hr, hmin⟩
        cases i with
        | zero =>
          cases hi
          cases hp hr
        | succ k =>
          refine ⟨k, hi, hr, ?_⟩
          intro j hj x hx
          exact hmin (j + 1) (by omega) x hx

theorem getVer_setVer (st : Store) (r v : String) :
    getVer (setVer st r v) r = some v := by
  induction st with
  | nil => simp [getVer, setVer]
  | cons kv rest ih =>
    obtain ⟨k, v0⟩ := kv
    by_cases h : k = r
    · subst h
      simp [setVer, getVer]
    · simp [setVer, getVer, h, ih]

theorem splitSep_ne_nil (sep : Char) (cs : List Char) : splitSep sep cs ≠ [] := by
  cases cs with
  | nil => simp [splitSep]
  | cons c cs =>
    unfold splitSep
    by_cases h : c == sep
    · simp [h]
    · simp only [h]
      cases hs : splitSep sep cs <;> simp

theorem splitSep_map_lower (cs : List Char) :
    splitSep ':' (cs.map jsCharLower) =
      (splitSep ':' cs).map (List.map jsCharLower) := by
  induction cs with
  | nil => simp [splitSep]
  | cons c cs ih =>
    have hcol : (jsCharLower c == ':') = (c == ':') := by
      by_cases h : c = ':'
      · subst h
        have : jsCharLower ':' = ':' := (jsCharLower_fix ':' (by decide) ':').mpr rfl
        rw [this]
      · have h2 : ¬ jsCharLower c = ':' := fun hh =>
          h ((jsCharLower_fix ':' (by decide) c).mp hh)
        simp [h, h2]
    simp only [List.map_cons]
    unfold splitSep
    rw [hcol]
    by_cases h : c == ':'
    · simp [h, ih]
    · simp only [h]
      rw [ih]
      obtain ⟨p, ps, hps⟩ : ∃ p ps, splitSep ':' cs = p :: ps := by
        cases hs : splitSep ':' cs with
        | nil => exact absurd hs (splitSep_ne_nil ':' cs)
        | cons p ps => exact ⟨p, ps, rfl⟩
      rw [hps]
      simp

theorem jsTrim_map_lower (cs : List Char) :
    jsTrim (cs.map jsCharLower) = (jsTrim cs).map jsCharLower := by
  unfold jsTrim
  have hsp : (jsSpace ∘ jsCharLower) = jsSpace := by
    funext c
    exact jsSpace_jsCharLower c
  rw [List.dropWhile_map, hsp, ← List.map_reverse, List.dropWhile_map, hsp,
    ← List.map_reverse]

theorem map_lower_idem (cs : List Char) :
    (cs.map jsCharLower).map jsCharLower = cs.map jsCharLower := by
  rw [List.map_map]
  congr 1
  funext c
  exact jsCharLower_idem c

theorem parseLineCore_lower (cs : List Char) :
    parseLineCore (cs.map jsCharLower) = parseLineCore cs := by
  cases cs with
  | nil => rfl
  | cons c cs =>
    have hhash : (jsCharLower c == '#') = (c == '#') := by
      by_cases h : c = '#'
      · subst h
        rw [(jsCharLower_fix '#' (by decide) '#').mpr rfl]
      · have h2 : jsCharLower c ≠ '#' := fun hh =>
          h ((jsCharLower_fix '#' (by decide) c).mp hh)
        simp [h, h2]
    rw [List.map_cons]
    unfold parseLineCore
    have hs1 : startsWithHash (jsCharLower c :: cs.map jsCharLower) = (c == '#') := by
      rw [show startsWithHash (jsCharLower c :: cs.map jsCharLower) =
            (jsCharLower c == '#') from rfl, hhash]
    have hs2 : startsWithHash (c :: cs) = (c == '#') := rfl
    rw [hs1, hs2]
    by_cases h : (c == '#') = true
    · rw [h]
      simp
    · have h2 : (c == '#') = false := Bool.eq_false_iff.mpr (by simpa using h)
      rw [h2]
      simp only [Bool.false_eq_true, if_false]
      have hparts : (splitSep ':' (jsCharLower c :: cs.map jsCharLower)).map
            (fun p => (jsTrim p).map jsCharLower) =
          (splitSep ':' (c :: cs)).map (fun p => (jsTrim p).map jsCharLower) := by
        have hc : jsCharLower c :: cs.map jsCharLower = (c :: cs).map jsCharLower := rfl
        rw [hc, splitSep_map_lower, List.map_map]
        congr 1
        funext p
        simp only [Function.comp]
        rw [jsTrim_map_lower, map_lower_idem]
      rw [hparts]

theorem parseLine_lower (l : String) : parseLine (jsToLower l) = parseLine l := by
  unfold parseLine jsToLower
  rw [show (String.mk (l.data.map jsCharLower)).data = l.data.map jsCharLower from rfl,
    parseLineCore_lower]

theorem parseLineCore_fst_lower (cs : List Char) (out : List Char)
    (h : (parseLineCore cs).1 = some out) : out.map jsCharLower = out := by
  unfold parseLineCore at h
  split at h
  · cases h
  · injection h with h
    subst h
    obtain ⟨p, ps, hps⟩ : ∃ p ps, splitSep ':' cs = p :: ps := by
      cases hs : splitSep ':' cs with
      | nil => exact absurd hs (splitSep_ne_nil ':' cs)
      | cons p ps => exact ⟨p, ps, rfl⟩
    rw [hps]
    simp only [List.map_cons, List.headD_cons]
    exact map_lower_idem _

theorem longestAccept_sound :
    ∀ (cs : List Char) (s : Nat) (p r : List Char),
      longestAccept s cs = some (p, r) → cs = p ++ r ∧ runState s p = some 3 := by
  intro cs
  induction cs with
  | nil => intro s p r h; cases h
  | cons c cs ih =>
    intro s p r h
    unfold longestAccept at h
    split at h
    · cases h
    · rename_i s2 hstep
      split at h
      · rename_i p2 r2 hla
        cases h
        obtain ⟨he, hr⟩ := ih s2 p2 _ hla
        constructor
        · rw [he, List.cons_append]
        · unfold runState
          rw [hstep]
          exact hr
      · rename_i hla
        split at h
        · rename_i h3
          cases h
          refine ⟨rfl, ?_⟩
          unfold runState
          rw [hstep]
          unfold runState
          rw [eq_of_beq h3]
        · cases h

theorem longestAccept_none :
    ∀ (cs : List Char) (s : Nat), longestAccept s cs = none →
      ∀ q t, cs = q ++ t → q ≠ [] → runState s q ≠ some 3 := by
  intro cs
  induction cs with
  | nil =>
    intro s _ q t hqt hq
    cases q with
    | nil => exact absurd rfl hq
    | cons a as => cases hqt
  | cons c cs ih =>
    intro s h q t hqt hq
    cases q with
    | nil => exact absurd rfl hq
    | cons a as =>
      injection hqt with h1 h2
      subst h1
      unfold longestAccept at h
      split at h
      · rename_i hstep
        unfold runState
        rw [hstep]
        simp
      · rename_i s2 hstep
        split at h
        · rename_i p2 r2 hla
          cases h
        · rename_i hla
          have h3 : s2 ≠ 3 := by
            intro hh
            rw [hh] at h
            simp at h
          unfold runState
          rw [hstep]
          cases as with
          | nil =>
            unfold runState
            intro hh
            injection hh with hh2
            exact h3 hh2
          | cons b bs =>
            exact ih s2 hla (b :: bs) t h2 (by simp)

theorem longestAccept_longest :
    ∀ (cs : List Char) (s : Nat) (p r : List Char),
      longestAccept s cs = some (p, r) →
      ∀ q t, cs = q ++ t → runState s q = some 3 → q.length ≤ p.length := by
  intro cs
  induction cs with
  | nil => intro s p r h; cases h
  | cons c cs ih =>
    intro s p r h q t hqt hrun
    cases q with
    | nil => simp
    | cons a as =>
      injection hqt with h1 h2
      subst h1
      unfold runState at hrun
      cases hstep : dfaStep s c with
      | none => rw [hstep] at hrun; cases hrun
      | some s2 =>
        rw [hstep] at hrun
        unfold longestAccept at h
        split at h
        · cases h
        · rename_i s2b hstepb
          rw [hstepb] at hstep
          injection hstep with hs2
          subst hs2
          split at h
          · rename_i p2 r2 hla
            cases h
            have := ih s2b p2 _ hla as t h2 hrun
            simpa using this
          · rename_i hla
            split at h
            · rename_i h3
              cases h
              cases as with
              | nil => simp
              | cons b bs =>
                exact absurd hrun
                  (longestAccept_none cs s2b hla (b :: bs) t h2 (by simp))
            · cases h

theorem dottedB_iff (m : List Char) : dottedB m = true ↔ runState 0 m = some 3 := by
  unfold dottedB
  constructor
  · intro h; exact eq_of_beq h
  · intro h; rw [h]; rfl

theorem findDotted_none :
    ∀ (cs : List Char), findDotted cs = none →
      ∀ pre m post, cs = pre ++ m ++ post → dottedB m = false := by
  intro cs
  induction cs with
  | nil =>
    intro _ pre m post hd
    have : pre = [] ∧ m ++ post = [] := by
      constructor
      · cases pre with
        | nil => rfl
        | cons a as => cases hd
      · cases pre with
        | nil => simpa using hd.symm
        | cons a as => cases hd
    have hm : m = [] := by
      cases m with
      | nil => rfl
      | cons b bs => rw [this.1] at hd; cases hd
    rw [hm]
    rfl
  | cons c cs ih =>
    intro h pre m post hd
    unfold findDotted at h
    split at h
    · cases h
    · rename_i hla
      cases pre with
      | nil =>
        simp only [List.nil_append] at hd
        cases m with
        | nil => rfl
        | cons b bs =>
          apply Bool.eq_false_iff.mpr
          intro hdot
          exact longestAccept_none (c :: cs) 0 hla (b :: bs) post hd (by simp)
            ((dottedB_iff (b :: bs)).mp hdot)
      | cons a as =>
        injection hd with h1 h2
        exact ih h as m post h2

theorem findDotted_some :
    ∀ (cs : List Char) (m : List Char), findDotted cs = some m →
      ∃ pre post, cs = pre ++ m ++ post ∧ dottedB m = true ∧
        ∀ pre2 m2 post2, cs = pre2 ++ m2 ++ post2 → dottedB m2 = true →
          pre.length ≤ pre2.length ∧
          (pre2.length = pre.length → m2.length ≤ m.length) := by
  intro cs
  induction cs with
  | nil => intro m h; cases h
  | cons c cs ih =>
    intro m h
    unfold findDotted at h
    split at h
    · rename_i p2 r2 hla
      injection h with hm
      subst hm
      obtain ⟨he, hr⟩ := longestAccept_sound (c :: cs) 0 p2 r2 hla
      refine ⟨[], r2, by simpa using he, (dottedB_iff p2).mpr hr, ?_⟩
      intro pre2 m2 post2 hd2 hdot2
      refine ⟨by simp, ?_⟩
      intro hlen
      have hpre2 : pre2 = [] := List.eq_nil_of_length_eq_zero (by simpa using hlen)
      subst hpre2
      simp only [List.nil_append] at hd2
      exact longestAccept_longest (c :: cs) 0 p2 r2 hla m2 post2 hd2
        ((dottedB_iff m2).mp hdot2)
    · rename_i hla
      obtain ⟨pre, post, hd, hdot, hmin⟩ := ih m h
      refine ⟨c :: pre, post, by rw [hd]; simp, hdot, ?_⟩
      intro pre2 m2 post2 hd2 hdot2
      cases pre2 with
      | nil =>
        simp only [List.nil_append] at hd2
        cases m2 with
        | nil => cases hdot2
        | cons b bs =>
          exact absurd ((dottedB_iff (b :: bs)).mp hdot2)
            (longestAccept_none (c :: cs) 0 hla (b :: bs) post2 hd2 (by simp))
      | cons a as =>
        injection hd2 with h1 h2
        obtain ⟨hle, hsame⟩ := hmin as m2 post2 h2 hdot2
        constructor
        · simpa using Nat.succ_le_succ hle
        · intro hlen
          apply hsame
          simpa using hlen

theorem processParsed_branch (v : String → Bool) (c : String → String → Int)
    (fd : String → String) (store : Store) (repo : String) (beta : Bool)
    (f : String → FetchResult) (releases : List Release) (rel : Release)
    (h2 : repo ≠ "") (h3 : f repo = .ok releases)
    (h4 : selectRelease releases beta = some rel) :
    processParsed v c fd store (some repo, beta) f =
      (match getVer store repo with
       | none =>
         ⟨setVer store repo (sanitizeVersion rel.tag_name), [], .firstSeen⟩
       | some lastVersion =>
         if lastVersion = "" then
           ⟨setVer store repo (sanitizeVersion rel.tag_name), [], .firstSeen⟩
         else if !(v lastVersion && v (sanitizeVersion rel.tag_name)) then
           ⟨store, [], .invalidVersion⟩
         else if c lastVersion (sanitizeVersion rel.tag_name) = -1 then
           ⟨setVer store repo (sanitizeVersion rel.tag_name),
            [⟨newReleaseTitle repo, "loudspeaker",
              githubMarkdown (assembleMessage rel.name repo rel.html_url
                (sanitizeVersion rel.tag_name) (fd rel.published_at)
                (releaseBodyText rel))⟩], .notified⟩
         else if c lastVersion (sanitizeVersion rel.tag_name) = 1 then
           ⟨setVer store repo (sanitizeVersion rel.tag_name), [], .downgrade⟩
         else ⟨store, [], .same⟩) := by
  simp only [processParsed, if_neg h2, h3, h4]

theorem runSweep_cons (v : String → Bool) (c : String → String → Int)
    (fd : String → String) (store : Store) (l : String) (ls : List String)
    (f : String → FetchResult) :
    runSweep v c fd store (l :: ls) f =
      ((runSweep v c fd (processRepoLine v c fd store l f).store ls f).1,
       (processRepoLine v c fd store l f).notifs ++
         (runSweep v c fd (processRepoLine v c fd store l f).store ls f).2) :=
  rfl

/-! ## Claim theorems -/

/-- Claim C7: `sanitizeVersion` extracts the first dotted numeric sequence
(one or more `N.N...` groups, i.e. a match of `\d+(?:\.\d+)+`) from a raw tag
and prefixes it with `v`, returning the empty string when no such sequence
exists; in particular it maps `"v2.3.1-rc.1"` to `"v2.3.1"` and `"release"`
to `""`.  The extracted match is leftmost and, at its position, longest. -/
theorem C7_sanitizeVersion_contract :
    sanitizeVersion "v2.3.1-rc.1" = "v2.3.1" ∧
    sanitizeVersion "release" = "" ∧
    (∀ t : String, sanitizeVersion t = "" ↔
      ∀ pre m post, t.data = pre ++ m ++ post → dottedB m = false) ∧
    (∀ t : String, sanitizeVersion t ≠ "" →
      ∃ pre m post, t.data = pre ++ m ++ post ∧ dottedB m = true ∧
        sanitizeVersion t = String.mk ('v' :: m) ∧
        ∀ pre2 m2 post2, t.data = pre2 ++ m2 ++ post2 → dottedB m2 = true →
          pre.length ≤ pre2.length ∧
          (pre2.length = pre.length → m2.length ≤ m.length)) := by
  refine ⟨by decide, by decide, ?_, ?_⟩
  · intro t
    unfold sanitizeVersion
    cases hfd : findDotted t.data with
    | none =>
      refine iff_of_true rfl ?_
      exact findDotted_none t.data hfd
    | some m =>
      apply iff_of_false
      · intro hh
        have : 'v' :: m = [] := congrArg String.data hh
        cases this
      · intro hall
        obtain ⟨pre, post, hd, hdot, -⟩ := findDotted_some t.data m hfd
        rw [hall pre m post hd] at hdot
        cases hdot
  · intro t ht
    unfold sanitizeVersion at ht ⊢
    cases hfd : findDotted t.data with
    | none => rw [hfd] at ht; exact absurd rfl ht
    | some m =>
      obtain ⟨pre, post, hd, hdot, hmin⟩ := findDotted_some t.data m hfd
      exact ⟨pre, m, post, hd, hdot, rfl, hmin⟩

/-- Claim C7 witness: the leftmost-longest characterisation applied to the
concrete tag `"v2.3.1-rc.1"`. -/
theorem C7_witness :
    ∃ pre m post, ("v2.3.1-rc.1" : String).data = pre ++ m ++ post ∧
      dottedB m = true ∧
      sanitizeVersion "v2.3.1-rc.1" = String.mk ('v' :: m) ∧
      ∀ pre2 m2 post2, ("v2.3.1-rc.1" : String).data = pre2 ++ m2 ++ post2 →
        dottedB m2 = true → pre.length ≤ pre2.length ∧
        (pre2.length = pre.length → m2.length ≤ m.length) :=
  C7_sanitizeVersion_contract.2.2.2 "v2.3.1-rc.1" (by decide)

/-- Claim C4: the release selector returns the first (in supplied order)
release that is not a draft and is allowed by the beta flag; failing that,
the first non-draft release regardless of prerelease status; and it returns
none exactly when every release is a draft. -/
theorem C4_selectRelease_policy (rs : List Release) (beta : Bool) :
    (∀ r, selectRelease rs beta = some r →
      firstWith (fun x => !x.draft && (beta || !x.prerelease)) rs r ∨
      ((∀ x ∈ rs, (!x.draft && (beta || !x.prerelease)) = false) ∧
        firstWith (fun x => !x.draft) rs r)) ∧
    (selectRelease rs beta = none ↔ ∀ x ∈ rs, x.draft = true) := by
  constructor
  · intro r h
    unfold selectRelease at h
    split at h
    · rename_i r0 hf
      injection h with h2
      subst h2
      exact Or.inl ((find?_eq_some_firstWith _ rs r0).mp hf)
    · rename_i hf
      refine Or.inr ⟨?_, (find?_eq_some_firstWith _ rs r).mp h⟩
      intro x hx
      exact Bool.eq_false_iff.mpr (List.find?_eq_none.mp hf x hx)
  · unfold selectRelease
    split
    · rename_i r0 hf
      constructor
      · intro h
        cases h
      · intro hall
        have hp := List.find?_some hf
        have hmem := List.mem_of_find?_eq_some hf
        have hd := hall r0 hmem
        rw [hd] at hp
        simp at hp
    · rename_i hf
      rw [List.find?_eq_none]
      constructor
      · intro h x hx
        have := h x hx
        simpa using this
      · intro h x hx
        simp [h x hx]

/-- Claim C4 witness: on `[draft, prerelease, ok]` with `includeBeta = false`
the selector's answer `ok` is the first release passing the draft and
prerelease filters. -/
theorem C4_witness :
    firstWith (fun x => !x.draft && (false || !x.prerelease))
      [⟨"t1", "n1", "p1", "u1", none, true, false⟩,
       ⟨"t2", "n2", "p2", "u2", none, false, true⟩,
       ⟨"t3", "n3", "p3", "u3", none, false, false⟩]
      ⟨"t3", "n3", "p3", "u3", none, false, false⟩ ∨
    ((∀ x ∈ [⟨"t1", "n1", "p1", "u1", none, true, false⟩,
             ⟨"t2", "n2", "p2", "u2", none, false, true⟩,
             ⟨"t3", "n3", "p3", "u3", none, false, false⟩],
        (!Release.draft x && (false || !Release.prerelease x)) = false) ∧
      firstWith (fun x => !x.draft)
        [⟨"t1", "n1", "p1", "u1", none, true, false⟩,
         ⟨"t2", "n2", "p2", "u2", none, false, true⟩,
         ⟨"t3", "n3", "p3", "u3", none, false, false⟩]
        ⟨"t3", "n3", "p3", "u3", none, false, false⟩) :=
  (C4_selectRelease_policy _ false).1 _ (by decide)

/-- Claim C2 (amended): when the body's UTF-8 byte length exceeds `maxBytes`
the rendered body is the fallback link to the release page, whose own byte
length is `24 + 2 * byteLen url` — within `maxBytes` only when that quantity
is, not always. -/
theorem C2_truncation_fallback (body url : String) (maxBytes : Int)
    (h : (byteLen body : Int) > maxBytes) :
    trunkateReleaseBody body url maxBytes =
      "Full release notes: [" ++ url ++ "](" ++ url ++ ")" ∧
    (byteLen (trunkateReleaseBody body url maxBytes) : Int) =
      24 + 2 * (byteLen url : Int) := by
  have hn : ¬ ((byteLen body : Int) ≤ maxBytes) := not_le.mpr h
  unfold trunkateReleaseBody
  rw [if_neg hn]
  refine ⟨rfl, ?_⟩
  simp only [byteLen_append]
  have h1 : byteLen "Full release notes: [" = 21 := by decide
  have h2 : byteLen "](" = 2 := by decide
  have h3 : byteLen ")" = 1 := by decide
  rw [h1, h2, h3]
  push_cast
  ring

/-- Claim C2 counterexample: with a 12-byte body, a budget of 5 bytes and the
one-byte URL `"u"`, the body is truncated but the fallback itself is 26 bytes,
exceeding the budget — refuting "the byte length of that fallback is itself
always ≤ maxBytes". -/
theorem C2_counterexample :
    (byteLen "0123456789ab" : Int) > 5 ∧
    trunkateReleaseBody "0123456789ab" "u" 5 =
      "Full release notes: [u](u)" ∧
    ¬ ((byteLen (trunkateReleaseBody "0123456789ab" "u" 5) : Int) ≤ 5) := by
  decide

/-- Claim C2 witness: the amended fallback equations at a concrete input. -/
theorem C2_witness :
    trunkateReleaseBody "0123456789ab" "u" 5 =
      "Full release notes: [" ++ "u" ++ "](" ++ "u" ++ ")" ∧
    (byteLen (trunkateReleaseBody "0123456789ab" "u" 5) : Int) =
      24 + 2 * (byteLen "u" : Int) :=
  C2_truncation_fallback "0123456789ab" "u" 5 (by decide)

/-- Claim C3: a 404 release fetch makes the entry emit the error-tagged
"Repository not found" notification and stop (the undefined fetch result
makes `releases.find` throw, ending the entry), without touching the store;
the sweep catches the per-line error and the remaining entries still run,
so nothing fatal propagates. -/
theorem C3_notFound_isolated (v : String → Bool) (c : String → String → Int)
    (fd : String → String) (store : Store) (f : String → FetchResult)
    (line repo : String) (rest : List String)
    (h1 : (parseLine line).1 = some repo) (h2 : repo ≠ "")
    (h3 : f repo = .notFound) :
    processRepoLine v c fd store line f =
      ⟨store,
       [⟨"Error", "exclamation", githubMarkdown (notFoundMessage repo)⟩],
       .threw⟩ ∧
    runSweep v c fd store (line :: rest) f =
      ((runSweep v c fd store rest f).1,
       ⟨"Error", "exclamation", githubMarkdown (notFoundMessage repo)⟩ ::
         (runSweep v c fd store rest f).2) := by
  have key : processRepoLine v c fd store line f =
      ⟨store,
       [⟨"Error", "exclamation", githubMarkdown (notFoundMessage repo)⟩],
       .threw⟩ := by
    simp only [processRepoLine, processParsed, h1, if_neg h2, h3]
  refine ⟨key, ?_⟩
  rw [runSweep_cons, key]
  exact rfl

/-- Claim C3 witness: the 404 behaviour at a concrete repository line. -/
theorem C3_witness :
    processRepoLine (fun _ => true) (fun _ _ => 0) id []
        "acme/widget" (fun _ => .notFound) =
      ⟨[],
       [⟨"Error", "exclamation",
         githubMarkdown (notFoundMessage "acme/widget")⟩], .threw⟩ ∧
    runSweep (fun _ => true) (fun _ _ => 0) id [] ["acme/widget"]
        (fun _ => .notFound) =
      ((runSweep (fun _ => true) (fun _ _ => 0) id [] []
          (fun _ => .notFound)).1,
       ⟨"Error", "exclamation", githubMarkdown (notFoundMessage "acme/widget")⟩ ::
         (runSweep (fun _ => true) (fun _ _ => 0) id [] []
           (fun _ => .notFound)).2) :=
  C3_notFound_isolated (fun _ => true) (fun _ _ => 0) id [] (fun _ => .notFound)
    "acme/widget" "acme/widget" [] (by decide) (by decide) rfl

/-- Claim C5: first-seen stores the normalized version silently; with a prior
(valid) record, a notification is posted exactly when the comparator answers
NEWER (`-1`); NEWER and OLDER (`1`) both update the store (OLDER silently);
SAME (`0`) touches neither store nor notifier. -/
theorem C5_version_flow (v : String → Bool) (c : String → String → Int)
    (fd : String → String) (store : Store) (line : String)
    (f : String → FetchResult) (repo : String) (beta : Bool)
    (releases : List Release) (rel : Release)
    (h1 : parseLine line = (some repo, beta)) (h2 : repo ≠ "")
    (h3 : f repo = .ok releases) (h4 : selectRelease releases beta = some rel) :
    (getVer store repo = none →
      processRepoLine v c fd store line f =
        ⟨setVer store repo (sanitizeVersion rel.tag_name), [], .firstSeen⟩) ∧
    (∀ lastV, getVer store repo = some lastV →
      v lastV = true → v (sanitizeVersion rel.tag_name) = true →
      v "" = false →
      (((processRepoLine v c fd store line f).notifs ≠ [] ↔
         c lastV (sanitizeVersion rel.tag_name) = -1) ∧
       (c lastV (sanitizeVersion rel.tag_name) = -1 →
         processRepoLine v c fd store line f =
           ⟨setVer store repo (sanitizeVersion rel.tag_name),
            [⟨newReleaseTitle repo, "loudspeaker",
              githubMarkdown (assembleMessage rel.name repo rel.html_url
                (sanitizeVersion rel.tag_name) (fd rel.published_at)
                (releaseBodyText rel))⟩], .notified⟩) ∧
       (c lastV (sanitizeVersion rel.tag_name) = 1 →
         processRepoLine v c fd store line f =
           ⟨setVer store repo (sanitizeVersion rel.tag_name), [],
            .downgrade⟩) ∧
       (c lastV (sanitizeVersion rel.tag_name) = 0 →
         processRepoLine v c fd store line f = ⟨store, [], .same⟩))) := by
  have hpp : processRepoLine v c fd store line f =
      processParsed v c fd store (some repo, beta) f := by
    rw [processRepoLine, h1]
  rw [hpp, processParsed_branch v c fd store repo beta f releases rel h2 h3 h4]
  constructor
  · intro hg
    simp only [hg]
  · intro lastV hg hv1 hv2 hv0
    have hne : lastV ≠ "" := by
      intro hh
      rw [hh, hv0] at hv1
      cases hv1
    have hval : (!(v lastV && v (sanitizeVersion rel.tag_name))) = false := by
      rw [hv1, hv2]
      rfl
    refine ⟨?_, ?_, ?_, ?_⟩
    · by_cases hc1 : c lastV (sanitizeVersion rel.tag_name) = -1
      · simp only [hg, if_neg hne, hval, Bool.false_eq_true, if_false,
          if_pos hc1]
        constructor
        · intro _
          exact hc1
        · intro _
          exact List.cons_ne_nil _ _
      · by_cases hc2 : c lastV (sanitizeVersion rel.tag_name) = 1
        · simp only [hg, if_neg hne, hval, Bool.false_eq_true, if_false,
            if_neg hc1, if_pos hc2]
          constructor
          · intro hn
            exact absurd rfl hn
          · intro hcc
            exact absurd hcc hc1
        · simp only [hg, if_neg hne, hval, Bool.false_eq_true, if_false,
            if_neg hc1, if_neg hc2]
          constructor
          · intro hn
            exact absurd rfl hn
          · intro hcc
            exact absurd hcc hc1
    · intro hc1
      simp only [hg, if_neg hne, hval, Bool.false_eq_true, if_false,
        if_pos hc1]
    · intro hc2
      have hc1 : ¬ c lastV (sanitizeVersion rel.tag_name) = -1 := by
        rw [hc2]
        decide
      simp only [hg, if_neg hne, hval, Bool.false_eq_true, if_false,
        if_neg hc1, if_pos hc2]
    · intro hc0
      have hc1 : ¬ c lastV (sanitizeVersion rel.tag_name) = -1 := by
        rw [hc0]
        decide
      have hc2 : ¬ c lastV (sanitizeVersion rel.tag_name) = 1 := by
        rw [hc0]
        decide
      simp only [hg, if_neg hne, hval, Bool.false_eq_true, if_false,
        if_neg hc1, if_neg hc2]

/-- Claim C5 witness: the NEWER branch at a concrete entry — store updated to
the normalized version and the notification posted. -/
theorem C5_witness :
    processRepoLine (fun s => s != "") (fun _ _ => -1) id
        [("acme/widget", "v1.0.0")] "acme/widget"
        (fun _ => .ok [⟨"1.0.1", "r", "p", "u", none, false, false⟩]) =
      ⟨setVer [("acme/widget", "v1.0.0")] "acme/widget"
          (sanitizeVersion "1.0.1"),
       [⟨newReleaseTitle "acme/widget", "loudspeaker",
         githubMarkdown (assembleMessage "r" "acme/widget" "u"
           (sanitizeVersion "1.0.1") (id "p")
           (releaseBodyText ⟨"1.0.1", "r", "p", "u", none, false, false⟩))⟩],
       .notified⟩ :=
  ((C5_version_flow (fun s => s != "") (fun _ _ => -1) id
      [("acme/widget", "v1.0.0")] "acme/widget"
      (fun _ => .ok [⟨"1.0.1", "r", "p", "u", none, false, false⟩])
      "acme/widget" false [⟨"1.0.1", "r", "p", "u", none, false, false⟩]
      ⟨"1.0.1", "r", "p", "u", none, false, false⟩
      (by decide) (by decide) rfl (by decide)).2 "v1.0.0" (by decide)
      (by decide) (by decide) (by decide)).2.1 rfl

/-- Claim C6 (amended): for an entry whose stored version is non-empty (JS
truthy), a validation failure on either side skips the comparison entirely —
the outcome does not depend on the comparator — surfaces the error and leaves
the store untouched.  (A stored empty string instead takes the first-seen
branch; see the counterexample.) -/
theorem C6_invalid_skip (v : String → Bool) (c c2 : String → String → Int)
    (fd : String → String) (store : Store) (line : String)
    (f : String → FetchResult) (repo : String) (beta : Bool)
    (releases : List Release) (rel : Release) (lastV : String)
    (h1 : parseLine line = (some repo, beta)) (h2 : repo ≠ "")
    (h3 : f repo = .ok releases) (h4 : selectRelease releases beta = some rel)
    (h5 : getVer store repo = some lastV) (h6 : lastV ≠ "")
    (h7 : v lastV = false ∨ v (sanitizeVersion rel.tag_name) = false) :
    processRepoLine v c fd store line f = ⟨store, [], .invalidVersion⟩ ∧
    processRepoLine v c fd store line f =
      processRepoLine v c2 fd store line f := by
  have key : ∀ c3 : String → String → Int,
      processRepoLine v c3 fd store line f = ⟨store, [], .invalidVersion⟩ := by
    intro c3
    have hpp : processRepoLine v c3 fd store line f =
        processParsed v c3 fd store (some repo, beta) f := by
      rw [processRepoLine, h1]
    rw [hpp,
      processParsed_branch v c3 fd store repo beta f releases rel h2 h3 h4]
    have hval : (!(v lastV && v (sanitizeVersion rel.tag_name))) = true := by
      rcases h7 with h7 | h7 <;> simp [h7]
    simp only [h5, if_neg h6, hval, if_true]
  exact ⟨key c, (key c).trans (key c2).symm⟩

/-- Claim C6 counterexample: a stored version exists (the empty string, which
the real validator rejects), yet the entry is processed through the
first-seen branch and the store IS mutated — refuting "no store mutation
occurs" for entries whose stored version fails validation. -/
theorem C6_counterexample :
    getVer [("acme/widget", "")] "acme/widget" = some "" ∧
    (fun s => s != "") "" = false ∧
    processRepoLine (fun s => s != "") (fun _ _ => 0) id [("acme/widget", "")]
        "acme/widget"
        (fun _ => .ok [⟨"1.0.1", "r", "p", "u", none, false, false⟩]) =
      ⟨[("acme/widget", "v1.0.1")], [], .firstSeen⟩ ∧
    [("acme/widget", "v1.0.1")] ≠ [("acme/widget", "")] := by
  decide

/-- Claim C6 witness: the amended skip behaviour at a concrete entry, under
two different comparators. -/
theorem C6_witness :
    processRepoLine (fun _ => false) (fun _ _ => 0) id
        [("acme/widget", "v1.0.0")] "acme/widget"
        (fun _ => .ok [⟨"1.0.1", "r", "p", "u", none, false, false⟩]) =
      ⟨[("acme/widget", "v1.0.0")], [], .invalidVersion⟩ ∧
    processRepoLine (fun _ => false) (fun _ _ => 0) id
        [("acme/widget", "v1.0.0")] "acme/widget"
        (fun _ => .ok [⟨"1.0.1", "r", "p", "u", none, false, false⟩]) =
      processRepoLine (fun _ => false) (fun _ _ => 1) id
        [("acme/widget", "v1.0.0")] "acme/widget"
        (fun _ => .ok [⟨"1.0.1", "r", "p", "u", none, false, false⟩]) :=
  C6_invalid_skip (fun _ => false) (fun _ _ => 0) (fun _ _ => 1) id
    [("acme/widget", "v1.0.0")] "acme/widget"
    (fun _ => .ok [⟨"1.0.1", "r", "p", "u", none, false, false⟩])
    "acme/widget" false [⟨"1.0.1", "r", "p", "u", none, false, false⟩]
    ⟨"1.0.1", "r", "p", "u", none, false, false⟩ "v1.0.0"
    (by decide) (by decide) rfl (by decide) (by decide) (by decide)
    (Or.inl rfl)

/-- Claim C10: a selected release whose tag normalizes to the empty string is
stored as `""` on first sight without any validity check (for every
validator); on any later cycle a stored `""` is treated as "no prior record"
(JS falsiness), so the first-seen branch repeats and no notification is sent
either time. -/
theorem C10_empty_version_loop (v : String → Bool) (c : String → String → Int)
    (fd : String → String) (store : Store) (line : String)
    (f : String → FetchResult) (repo : String) (beta : Bool)
    (releases : List Release) (rel : Release)
    (h1 : parseLine line = (some repo, beta)) (h2 : repo ≠ "")
    (h3 : f repo = .ok releases) (h4 : selectRelease releases beta = some rel) :
    (sanitizeVersion rel.tag_name = "" → getVer store repo = none →
      processRepoLine v c fd store line f =
        ⟨setVer store repo "", [], .firstSeen⟩ ∧
      getVer (setVer store repo "") repo = some "") ∧
    (getVer store repo = some "" →
      processRepoLine v c fd store line f =
        ⟨setVer store repo (sanitizeVersion rel.tag_name), [], .firstSeen⟩) := by
  have hpp : processRepoLine v c fd store line f =
      processParsed v c fd store (some repo, beta) f := by
    rw [processRepoLine, h1]
  constructor
  · intro hsan hg
    refine ⟨?_, getVer_setVer store repo ""⟩
    rw [hpp,
      processParsed_branch v c fd store repo beta f releases rel h2 h3 h4]
    simp only [hg, hsan]
  · intro hg
    rw [hpp,
      processParsed_branch v c fd store repo beta f releases rel h2 h3 h4]
    simp [hg]

/-- Claim C10 witness: a tag with no dotted numeric sequence at a concrete
first-seen entry, and the repeat on the next cycle. -/
theorem C10_witness :
    (processRepoLine (fun _ => false) (fun _ _ => 0) id [] "acme/widget"
        (fun _ => .ok [⟨"release", "r", "p", "u", none, false, false⟩]) =
      ⟨setVer [] "acme/widget" "", [], .firstSeen⟩ ∧
    getVer (setVer [] "acme/widget" "") "acme/widget" = some "") ∧
    processRepoLine (fun _ => false) (fun _ _ => 0) id [("acme/widget", "")]
        "acme/widget"
        (fun _ => .ok [⟨"release", "r", "p", "u", none, false, false⟩]) =
      ⟨setVer [("acme/widget", "")] "acme/widget"
          (sanitizeVersion "release"), [], .firstSeen⟩ :=
  ⟨(C10_empty_version_loop (fun _ => false) (fun _ _ => 0) id []
      "acme/widget" (fun _ => .ok [⟨"release", "r", "p", "u", none, false, false⟩])
      "acme/widget" false [⟨"release", "r", "p", "u", none, false, false⟩]
      ⟨"release", "r", "p", "u", none, false, false⟩
      (by decide) (by decide) rfl (by decide)).1 (by decide) rfl,
   (C10_empty_version_loop (fun _ => false) (fun _ _ => 0) id
      [("acme/widget", "")] "acme/widget"
      (fun _ => .ok [⟨"release", "r", "p", "u", none, false, false⟩])
      "acme/widget" false [⟨"release", "r", "p", "u", none, false, false⟩]
      ⟨"release", "r", "p", "u", none, false, false⟩
      (by decide) (by decide) rfl (by decide)).2 (by decide)⟩

/-- Claim C9: every repository id produced by line parsing is already
lowercase (parsing lowercases each colon-delimited field, the id included),
and the whole per-entry outcome — store key, fetch argument, rendered
notification — depends on the line only through its lowercased form, so two
lines differing only in letter case resolve to the same store entry. -/
theorem C9_lowercase_resolution :
    (∀ (line r : String), (parseLine line).1 = some r → jsToLower r = r) ∧
    (∀ (v : String → Bool) (c : String → String → Int) (fd : String → String)
       (store : Store) (f : String → FetchResult) (l1 l2 : String),
       jsToLower l1 = jsToLower l2 →
       processRepoLine v c fd store l1 f =
         processRepoLine v c fd store l2 f) := by
  constructor
  · intro line r h
    unfold parseLine at h
    rcases Option.map_eq_some'.mp h with ⟨cs, hc, hr⟩
    subst hr
    have hfix : cs.map jsCharLower = cs := parseLineCore_fst_lower line.data cs hc
    unfold jsToLower
    rw [show (String.mk cs).data = cs from rfl, hfix]
  · intro v c fd store f l1 l2 h
    have hp : parseLine l1 = parseLine l2 := by
      rw [← parseLine_lower l1, ← parseLine_lower l2, h]
    rw [processRepoLine, processRepoLine, hp]

/-- Claim C9 witness: a mixed-case line parses to the lowercase id, and a
mixed-case and a lowercase line produce identical outcomes. -/
theorem C9_witness :
    jsToLower "acme/widget" = "acme/widget" ∧
    processRepoLine (fun _ => true) (fun _ _ => 0) id [] "AcMe/Widget:BETA"
        (fun _ => .fetchError) =
      processRepoLine (fun _ => true) (fun _ _ => 0) id [] "acme/widget:beta"
        (fun _ => .fetchError) :=
  ⟨C9_lowercase_resolution.1 "AcMe/Widget" "acme/widget" (by decide),
   C9_lowercase_resolution.2 (fun _ => true) (fun _ _ => 0) id []
     (fun _ => .fetchError) "AcMe/Widget:BETA" "acme/widget:beta" (by decide)⟩

/-- Claim C8: within a sweep each entry's outcome — including a thrown error
— feeds the next entry and never aborts the remainder (the sweep over a
concatenation is the sweep over the first part followed by the sweep over the
second from the resulting store), and one `checkReleases` iteration always
reschedules after the fixed configured delay, also when the repository list
was unreadable. -/
theorem C8_sweep_isolation_reschedule :
    (∀ (v : String → Bool) (c : String → String → Int) (fd : String → String)
       (store : Store) (f : String → FetchResult) (line : String)
       (rest : List String),
       runSweep v c fd store (line :: rest) f =
         ((runSweep v c fd (processRepoLine v c fd store line f).store rest
             f).1,
          (processRepoLine v c fd store line f).notifs ++
            (runSweep v c fd (processRepoLine v c fd store line f).store rest
              f).2)) ∧
    (∀ (v : String → Bool) (c : String → String → Int) (fd : String → String)
       (store : Store) (f : String → FetchResult) (ls1 ls2 : List String),
       runSweep v c fd store (ls1 ++ ls2) f =
         ((runSweep v c fd (runSweep v c fd store ls1 f).1 ls2 f).1,
          (runSweep v c fd store ls1 f).2 ++
            (runSweep v c fd (runSweep v c fd store ls1 f).1 ls2 f).2)) ∧
    (∀ (v : String → Bool) (c : String → String → Int) (fd : String → String)
       (interval : Nat) (store : Store) (listRes : ListFetch)
       (f : String → FetchResult),
       (checkReleasesStep v c fd interval store listRes f).2.2 = interval) := by
  refine ⟨fun v c fd store f line rest => rfl, ?_, ?_⟩
  · intro v c fd store f ls1 ls2
    induction ls1 generalizing store with
    | nil => simp [runSweep]
    | cons l ls ih =>
      rw [List.cons_append, runSweep_cons, runSweep_cons, ih]
      simp [List.append_assoc]
  · intro v c fd interval store listRes f
    cases listRes <;> rfl

/-- Claim C1 (amended): only emoji-shortcode expansion is applied to the
header text and the body before the byte-length check — the header is
emojified before the budget is computed and the body is emojified before
being measured — while the issue/pull-request, mention and compare-URL
rewrites (`githubMarkdown`) are applied to the assembled message only
afterwards, inside the send step; hence the text whose UTF-8 byte length the
truncation decision measures is the emoji-expanded, not the fully
transformed, text. -/
theorem C1_emoji_before_truncation
    (name repo url version dateStr body : String) :
    assembleMessage name repo url version dateStr body =
      renderHeaders name repo url version dateStr ++
        (if (byteLen (emojify body) : Int) ≤
            (MAX_MESSAGE_BYTES : Int) -
              (byteLen (renderHeaders name repo url version dateStr) : Int)
         then emojify body
         else "Full release notes: [" ++ url ++ "](" ++ url ++ ")") ∧
    sentNtfyBody (assembleMessage name repo url version dateStr body) =
      githubMarkdown (assembleMessage name repo url version dateStr body) :=
  ⟨rfl, rfl⟩

set_option maxRecDepth 1000000 in
/-- Claim C1 counterexample: a release whose header leaves a 46-byte budget
and whose body is a 40-byte issue URL.  The emoji-expanded body fits the
budget, so the code keeps the full body — yet the fully transformed body is
47 bytes, so under the claim (full pipeline before the byte-length check,
`assembleMessageSpecC1`) the body would have been replaced by the fallback. -/
theorem C1_counterexample :
    let nameC := String.mk (List.replicate 974 '🚀')
    let bodyC := "https://github.com/acme/widget/issues/42"
    let bud : Int := (MAX_MESSAGE_BYTES : Int) -
      (byteLen (renderHeaders nameC "acme/widget" "u" "v1.0.0" "d") : Int)
    ((byteLen (emojify bodyC) : Int) ≤ bud ∧
     (byteLen (githubMarkdown (emojify bodyC)) : Int) > bud ∧
     assembleMessage nameC "acme/widget" "u" "v1.0.0" "d" bodyC =
       renderHeaders nameC "acme/widget" "u" "v1.0.0" "d" ++ emojify bodyC ∧
     assembleMessageSpecC1 nameC "acme/widget" "u" "v1.0.0" "d" bodyC =
       githubMarkdown (String.intercalate "\n"
         ["**" ++ nameC ++ "**", "Repo: [acme/widget](u)",
          "Version: v1.0.0", "Published: d", "", ""]) ++
       "Full release notes: [u](u)") := by
  decide

end Watcher
